import Mathlib

/-!
A verification development for the retrieval-and-grounding engine of the
contract-risk-agent repository.  The definitions below are shallow embeddings
of the Python functions in `src/retrieval/retrieval_orchestrator.py`,
`src/retrieval/reranking_agent.py`, `src/utils/statute_normalizer.py` and the
index structures of `src/vector_index/`.  Strings are modelled as Lean
`String` over their character lists; Python floats are modelled as exact
rationals (the only transcendental operation, `math.log` in the BM25 scorer,
is kept abstract as a parameter `lg : Rat → Rat`, so every theorem about
score-independent behaviour quantifies over it); CPython's stable `sort` is
modelled by `List.mergeSort`, which is stable in the same sense.
-/

namespace ContractRisk

/-! ## Python-style string primitives -/

/-- Python `\s` / `str.strip` whitespace class (ASCII). -/
def pyIsSpace (c : Char) : Bool :=
  c = ' ' || c = '\t' || c = '\n' || c = '\r' || c = '\x0b' || c = '\x0c'

/-- Python `str.lower` (inputs here are ASCII). -/
def pyLower (s : String) : String :=
  String.mk (s.toList.map Char.toLower)

/-- Python `str.strip()`. -/
def pyStrip (s : String) : String :=
  String.mk (((s.toList.dropWhile pyIsSpace).reverse.dropWhile pyIsSpace).reverse)

/-- Python `s.split()`: whitespace-separated words, empties dropped. -/
def splitWSAux : List Char → List Char → List (List Char)
  | [], acc => if acc.isEmpty then [] else [acc.reverse]
  | c :: rest, acc =>
    if pyIsSpace c then
      if acc.isEmpty then splitWSAux rest [] else acc.reverse :: splitWSAux rest []
    else splitWSAux rest (c :: acc)

/-- Python `" ".join(s.split())`: collapse whitespace runs to single spaces. -/
def pyCollapseWS (s : String) : String :=
  " ".intercalate ((splitWSAux s.toList []).map String.mk)

/-- Python `s.split("_")` (keeps empty pieces, unlike `s.split()`). -/
def splitUnderscoreAux : List Char → List Char → List (List Char)
  | [], acc => [acc.reverse]
  | c :: rest, acc =>
    if c = '_' then acc.reverse :: splitUnderscoreAux rest []
    else splitUnderscoreAux rest (c :: acc)

/-- A stable sort (insertion sort): `le a b` means `a` may come before `b`;
ties keep the original order.  CPython's `list.sort`/`sorted` are stable, so
any stable sort is a faithful model of them. -/
def stableInsert {α : Type} (le : α → α → Bool) (a : α) : List α → List α
  | [] => [a]
  | b :: l => if le a b then a :: b :: l else b :: stableInsert le a l

/-- Stable sort of a list (see `stableInsert`). -/
def stableSort {α : Type} (le : α → α → Bool) : List α → List α
  | [] => []
  | a :: l => stableInsert le a (stableSort le l)

/-- Python truthiness-based `or` on strings: `a or b`. -/
def pyOr (a b : String) : String := if a = "" then b else a

/-- Does the second list start with the first? -/
def listStartsWith : List Char → List Char → Bool
  | [], _ => true
  | _ :: _, [] => false
  | a :: as, b :: bs => a = b && listStartsWith as bs

/-- Contiguous-sublist test on character lists. -/
def containsSub (needle : List Char) : List Char → Bool
  | [] => needle.isEmpty
  | c :: rest => listStartsWith needle (c :: rest) || containsSub needle rest

/-- Python substring test `needle in hay`. -/
def substrB (needle hay : String) : Bool :=
  containsSub needle.toList hay.toList

/-! ## Data model

`IndexDocument` (src/vector_index/index_base.py) carries free text plus a
metadata dict.  The retrieval layer only reads the keys `chunk_id` (required
at construction), `id` and `section`; they are modelled as fields.  A missing
key is `none`; Python's falsy `""` is handled at each use site exactly as the
source does. -/

structure IndexDocument where
  content : String
  chunk_id : String
  idMeta : Option String := none
  sectionMeta : Option String := none
  source : String := ""
deriving DecidableEq, Repr

/-- `statutory_basis` dict: `sections` and `state_rules` lists.  An absent or
empty (falsy) dict is modelled as `none` at the use sites. -/
structure StatutoryBasis where
  sections : List String
  state_rules : List String
deriving DecidableEq, Repr

/-- The `cid` helper of `_ensure_anchor_docs_in_final`:
`metadata.get("chunk_id") or metadata.get("id") or content[:40]`. -/
def cid (d : IndexDocument) : String :=
  pyOr d.chunk_id (pyOr (d.idMeta.getD "") (String.mk (d.content.toList.take 40)))

/-- Orchestrator constants (class attributes of `RetrievalOrchestrator`). -/
def FINAL_TOP_K : Nat := 8

def TOP_K : Nat := 20

def BM25_PRESELECT_K : Nat := 60

def HYBRID_BM25_ENABLED : Bool := true

/-- The reranker is constructed with the default `top_k = 5`
(`CrossEncoderReRankingAgent.__init__`). -/
def RERANK_TOP_K : Nat := 5

/-! ## Reference normalizer (src/utils/statute_normalizer.py) -/

/-- `normalize_section_ref`.  The anchor branch models
`re.match(r"^RERA_ACT_SECTION_(.+)$", token, re.IGNORECASE)`; the final check
models `re.match(r"^\d+[A-Za-z0-9()]*$", token)`, which (because digits are in
the trailing class) accepts exactly the strings whose first character is a
digit and whose characters all lie in `[A-Za-z0-9()]`. -/
def normalize_section_ref (ref : String) : Option String :=
  if ref = "" then none
  else
    let token := pyStrip ref
    if token = "" then none
    else
      let low := (pyLower token).toList
      if low.take 17 = "rera_act_section_".toList ∧ 17 < token.toList.length then
        let parts :=
          ((splitUnderscoreAux (token.toList.drop 17) []).map String.mk).filter
            (fun p => p ≠ "")
        match parts with
        | [] => none
        | head :: tailParts =>
          some ("Section " ++ head ++
            String.join (tailParts.map (fun p => "(" ++ pyLower p ++ ")")))
      else
        let t1 := token.toList
        let afterWS := t1.dropWhile pyIsSpace
        let t2 :=
          if (afterWS.take 7).map Char.toLower = "section".toList then
            (afterWS.drop 7).dropWhile pyIsSpace
          else t1
        let t3 := ((t2.dropWhile pyIsSpace).reverse.dropWhile pyIsSpace).reverse
        if t3.isEmpty then none
        else
          let t4 := t3.filter (fun c => ¬ pyIsSpace c)
          match t4 with
          | [] => none
          | c :: _ =>
            if c.isDigit ∧ t4.all (fun x => x.isAlphanum || x = '(' || x = ')') then
              some ("Section " ++ String.mk t4)
            else none

/-! ## Orchestrator reference helpers -/

/-- First maximal digit run of a character list (`re.search(r"(\d+)", ·)`). -/
def firstDigitRun : List Char → Option String
  | [] => none
  | c :: rest =>
    if c.isDigit then some (String.mk (c :: rest.takeWhile Char.isDigit))
    else firstDigitRun rest

/-- `_section_id_from_ref`: `"Section 19(1)" -> "19"`. -/
def sectionIdFromRef (ref : String) : Option String :=
  firstDigitRun ref.toList

/-- Scan for `r"rule\s*(\d+)"` in an (already lower-cased,
whitespace-collapsed) character list; leftmost match, like `re.search`. -/
def ruleSearch : List Char → Option String
  | [] => none
  | c :: rest =>
    if c = 'r' then
      match rest with
      | 'u' :: 'l' :: 'e' :: rest2 =>
        let ds := (rest2.dropWhile pyIsSpace).takeWhile Char.isDigit
        if ds.isEmpty then ruleSearch rest else some (String.mk ds)
      | _ => ruleSearch rest
    else ruleSearch rest

/-- `_normalize_rule_ref`: `"Rule 6" / "rule6" / "Rule 6(1)" -> "rule 6"`. -/
def normalizeRuleRef (ref : String) : Option String :=
  let s := pyLower (pyCollapseWS ref)
  if s = "" then none
  else
    match ruleSearch s.toList with
    | none => none
    | some ds => some ("rule " ++ ds)

/-- Scan for `r"section_(\d+)"` (input already lower-cased). -/
def searchSectionUnderscore : List Char → Option String
  | [] => none
  | c :: rest =>
    if c = 's' then
      match rest with
      | 'e' :: 'c' :: 't' :: 'i' :: 'o' :: 'n' :: '_' :: rest2 =>
        let ds := rest2.takeWhile Char.isDigit
        if ds.isEmpty then searchSectionUnderscore rest else some (String.mk ds)
      | _ => searchSectionUnderscore rest
    else searchSectionUnderscore rest

/-- Scan for `r"section\s*(\d+)"` (input already lower-cased). -/
def searchSectionSpace : List Char → Option String
  | [] => none
  | c :: rest =>
    if c = 's' then
      match rest with
      | 'e' :: 'c' :: 't' :: 'i' :: 'o' :: 'n' :: rest2 =>
        let ds := (rest2.dropWhile pyIsSpace).takeWhile Char.isDigit
        if ds.isEmpty then searchSectionSpace rest else some (String.mk ds)
      | _ => searchSectionSpace rest
    else searchSectionSpace rest

/-- `_section_base`: tries `section_(\d+)`, then `section\s*(\d+)`, then a
leading digit run, all case-insensitively on the stripped reference. -/
def sectionBase (ref : String) : Option String :=
  let s := pyStrip ref
  if s = "" then none
  else
    let low := (pyLower s).toList
    match searchSectionUnderscore low with
    | some ds => some ds
    | none =>
      match searchSectionSpace low with
      | some ds => some ds
      | none =>
        let ds := (low.dropWhile pyIsSpace).takeWhile Char.isDigit
        if ds.isEmpty then none else some (String.mk ds)

/-! ## Anchor injection (`_inject_expected_anchor_docs`)

A vector index (src/vector_index/faiss_index.py) stores a dict
`chunk_id -> IndexDocument`; `FAISSVectorIndex.add` keys each document by its
own `metadata["chunk_id"]`.  The dict is modelled as an association list; the
rules branch iterates `documents.values()`, modelled as the list of values. -/

/-- `dict.get(key)` on the act index's `documents` map. -/
def lookupDoc (m : List (String × IndexDocument)) (key : String) : Option IndexDocument :=
  (m.find? (fun p => p.1 == key)).map (fun p => p.2)

/-- The body of the sections loop of `_inject_expected_anchor_docs`: extract
the section number, construct the chunk id, and look it up in the act
index's document map. -/
def injectSectionLookup (m : List (String × IndexDocument)) (ref : String) :
    Option IndexDocument :=
  match sectionIdFromRef ref with
  | none => none
  | some sid => lookupDoc m ("rera_act::section_" ++ sid)

/-- `_inject_expected_anchor_docs`: deterministic anchor lookups for expected
sections (by constructed chunk id) and expected rules (by normalized
section-label equality over the rule index's documents). -/
def injectExpectedAnchorDocs (basis : Option StatutoryBasis)
    (actIndex : Option (List (String × IndexDocument)))
    (rulesIndex : Option (List IndexDocument)) : List IndexDocument :=
  let expectedSections := match basis with | none => [] | some b => b.sections
  let expectedRules := match basis with | none => [] | some b => b.state_rules
  let fromSections : List IndexDocument :=
    match actIndex with
    | none => []
    | some m =>
      if expectedSections.isEmpty then []
      else expectedSections.filterMap (injectSectionLookup m)
  let fromRules : List IndexDocument :=
    match rulesIndex with
    | none => []
    | some docsList =>
      if expectedRules.isEmpty then []
      else
        let rulesNorm := expectedRules.filterMap normalizeRuleRef
        if rulesNorm.isEmpty then []
        else
          docsList.filter (fun d =>
            match d.sectionMeta with
            | none => false
            | some sec =>
              if sec = "" then false
              else
                match normalizeRuleRef sec with
                | none => false
                | some sn => sn ∈ rulesNorm)
  fromSections ++ fromRules

/-! ## Final selector / deduplicator (`_ensure_anchor_docs_in_final`) -/

/-- One pass of the append-dedup loop: skip documents whose `cid` is in
`seen`, append the rest, and return early (flag `true`) as soon as the output
reaches `k` entries right after an append — exactly the Python loop shape. -/
def pushDocs (k : Nat) : List IndexDocument → List IndexDocument → List String →
    List IndexDocument × List String × Bool
  | [], out, seen => (out, seen, false)
  | d :: rest, out, seen =>
    let key := cid d
    if key ∈ seen then pushDocs k rest out seen
    else
      let out2 := out ++ [d]
      let seen2 := key :: seen
      if k ≤ out2.length then (out2, seen2, true)
      else pushDocs k rest out2 seen2

/-- `_ensure_anchor_docs_in_final(docs, anchor_docs, k)`.  With an empty
anchor list the source short-circuits to `docs[:k]` without deduplication. -/
def ensureAnchorDocsInFinal (docs anchorDocs : List IndexDocument) (k : Nat) :
    List IndexDocument :=
  if anchorDocs.isEmpty then docs.take k
  else
    match pushDocs k anchorDocs [] [] with
    | (out1, _, true) => out1
    | (out1, seen1, false) => (pushDocs k docs out1 seen1).1

/-- The tail of `retrieve` after the external cross-encoder call: truncate the
reranked list to `FINAL_TOP_K`, re-inject the expected anchors, and merge.
The reranked list is an arbitrary input because the cross encoder is an
external model. -/
def retrieveFinalize (basis : Option StatutoryBasis)
    (actIndex : Option (List (String × IndexDocument)))
    (rulesIndex : Option (List IndexDocument))
    (rerankedDocs : List IndexDocument) : List IndexDocument :=
  let topDocs := rerankedDocs.take FINAL_TOP_K
  let anchors := injectExpectedAnchorDocs basis actIndex rulesIndex
  ensureAnchorDocsInFinal topDocs anchors FINAL_TOP_K

/-! ## Reranker adapter (src/retrieval/reranking_agent.py)

`CrossEncoderReRankingAgent.rerank` zips the documents with the external
model's scores, sorts by score descending (CPython's stable `list.sort` with
`reverse=True`), and keeps the first `top_k`.  The scores come from the
neural model, so they are a parameter here. -/

def rerankAgent (topk : Nat) (scores : List Rat) (documents : List IndexDocument) :
    List IndexDocument :=
  if documents.isEmpty then []
  else
    (((stableSort (fun a b => decide (b.2 ≤ a.2)) (documents.zip scores)).map
      Prod.fst).take topk)

/-! ## Diagnostics evaluator (`_compute_diagnostics`) -/

/-- Round-half-to-even at two decimal places, modelling Python's
`round(x, 2)`.  All values reaching it here are `1 - m/n` with `n ≤ 8`, on
which binary-float `round` agrees with exact rational half-even rounding
(ties only arise for power-of-two denominators, which floats represent
exactly). -/
def round2 (q : Rat) : Rat :=
  let x := q * 100
  let n : Int := Int.floor x
  let f : Rat := x - (n : Rat)
  let r : Int :=
    if f < 1/2 then n
    else if 1/2 < f then n + 1
    else if Even n then n else n + 1
  (r : Rat) / 100

/-- `str((d.metadata or {}).get("section") or "").lower().strip()`. -/
def secMetaOf (d : IndexDocument) : String :=
  pyStrip (pyLower (d.sectionMeta.getD ""))

/-- `[str(s).lower().strip() for s in expected_sections if s]`. -/
def expectedNormOf (sections : List String) : List String :=
  (sections.filter (fun s => s ≠ "")).map (fun s => pyStrip (pyLower s))

/-- `[sb(s) for s in expected_sections if sb(s)]` (`sectionBase` never
returns an empty string). -/
def expectedBasesOf (sections : List String) : List String :=
  sections.filterMap sectionBase

/-- `[nrr(str(r)) for r in expected_rules if r]` then dropping falsy results. -/
def expectedRulesNormOf (rules : List String) : List String :=
  (rules.filter (fun r => r ≠ "")).filterMap normalizeRuleRef

/-- The per-document `hit` flag of the diagnostics loop: an expected section
occurs in the text or equals the section metadata, or the metadata's base
section number is expected, or an expected rule occurs in the text or equals
the normalized metadata rule. -/
def docHit (expectedNorm bases rulesNorm : List String) (d : IndexDocument) : Bool :=
  let text := pyLower d.content
  let secMeta := secMetaOf d
  let secHit := expectedNorm.any (fun sec =>
    sec ≠ "" && (substrB sec text || (secMeta ≠ "" && sec == secMeta)))
  if secHit then true
  else
    let baseHit :=
      !bases.isEmpty && secMeta ≠ "" &&
        (match sectionBase secMeta with
         | some b => b ≠ "" && b ∈ bases
         | none => false)
    if baseHit then true
    else
      !rulesNorm.isEmpty &&
        (let secRuleNorm := if secMeta ≠ "" then normalizeRuleRef secMeta else none
         rulesNorm.any (fun r =>
           r ≠ "" && (substrB r text ||
             (match secRuleNorm with
              | some srn => r == srn
              | none => false))))

/-- The `(expected_norm or expected_rules_norm)` part of the diagnostics
gate. -/
def anchorsExpectedFor (basis : Option StatutoryBasis) : Bool :=
  let expectedSections := match basis with | none => [] | some b => b.sections
  let expectedRules := match basis with | none => [] | some b => b.state_rules
  !(expectedNormOf expectedSections).isEmpty ||
    !(expectedRulesNormOf expectedRules).isEmpty

/-- Number of final-evidence documents matching an expected anchor
(`matching_docs` of the source loop). -/
def countMatching (basis : Option StatutoryBasis) (docs : List IndexDocument) : Nat :=
  let expectedSections := match basis with | none => [] | some b => b.sections
  let expectedRules := match basis with | none => [] | some b => b.state_rules
  docs.countP (docHit (expectedNormOf expectedSections)
    (expectedBasesOf expectedSections) (expectedRulesNormOf expectedRules))

/-- The diagnostics dict.  `noiseVal` is the `noise_ratio` entry of the
source (the name is spelled differently here). -/
structure Diagnostics where
  coverage : Bool
  anchor_match : Bool
  noiseVal : Rat
  groundedness : Rat
  expected_sections : List String
  expected_rules : List String
deriving DecidableEq, Repr

/-- `_compute_diagnostics(clause_result, docs)`.  Only
`clause_result.statutory_basis` is read (a falsy basis is `none`). -/
def computeDiagnostics (basis : Option StatutoryBasis) (docs : List IndexDocument) :
    Diagnostics :=
  let expectedSections := match basis with | none => [] | some b => b.sections
  let expectedRules := match basis with | none => [] | some b => b.state_rules
  let coverage := decide (0 < docs.length)
  let gate := anchorsExpectedFor basis && !docs.isEmpty
  let matching := if gate then countMatching basis docs else 0
  let anchorMatch := gate && decide (0 < matching)
  let noiseRaw : Rat :=
    if gate then 1 - (matching : Rat) / (docs.length : Rat)
    else if docs.isEmpty then 1 else 0
  { coverage := coverage
    anchor_match := anchorMatch
    noiseVal := round2 noiseRaw
    groundedness := if anchorMatch then 1 else if coverage then 3/5 else 0
    expected_sections := expectedSections
    expected_rules := expectedRules }

/-- `_resolve_evidence(clause_result, evidences, diagnostics)`. -/
def resolveEvidence {α : Type} (evidences : List α) (diag : Diagnostics) : String :=
  if evidences.isEmpty then "INSUFFICIENT"
  else if diag.anchor_match then "EXPLICIT_ALIGNMENT"
  else if diag.coverage then "IMPLIED_ALIGNMENT"
  else "INSUFFICIENT"

/-! ## Hybrid BM25 preselector (`_bm25_preselect` and helpers) -/

/-- `_TOKEN_RE.findall`: maximal runs matching `[a-zA-Z]+|\d+[a-zA-Z]*`,
scanned left to right, as a state machine (`mode` 0 = outside a token,
1 = in a letter run, 2 = in a digit run, 3 = in the letter tail of a digit
token); `acc` holds the current token reversed. -/
def tokGo : List Char → Nat → List Char → List String
  | [], 0, _ => []
  | [], _, acc => [String.mk acc.reverse]
  | c :: rest, mode, acc =>
    if mode = 1 then
      if c.isAlpha then tokGo rest 1 (c :: acc)
      else if c.isDigit then String.mk acc.reverse :: tokGo rest 2 [c]
      else String.mk acc.reverse :: tokGo rest 0 []
    else if mode = 2 then
      if c.isDigit then tokGo rest 2 (c :: acc)
      else if c.isAlpha then tokGo rest 3 (c :: acc)
      else String.mk acc.reverse :: tokGo rest 0 []
    else if mode = 3 then
      if c.isAlpha then tokGo rest 3 (c :: acc)
      else if c.isDigit then String.mk acc.reverse :: tokGo rest 2 [c]
      else String.mk acc.reverse :: tokGo rest 0 []
    else
      if c.isAlpha then tokGo rest 1 [c]
      else if c.isDigit then tokGo rest 2 [c]
      else tokGo rest 0 []

/-- `_tokenize(text)`: lower-case, then split. -/
def tokenize (text : String) : List String :=
  tokGo (pyLower text).toList 0 []

/-- `_bm25_scores(query_tokens, doc_tokens, k1, b)` with `math.log` abstract
as `lg` (floats modelled as exact rationals). -/
def bm25Scores (lg : Rat → Rat) (queryTokens : List String)
    (docTokens : List (List String)) (k1 b : Rat) : List Rat :=
  let nDocs := docTokens.length
  if nDocs = 0 then []
  else
    let docLens := docTokens.map List.length
    let avgdl : Rat := ((docLens.sum : Nat) : Rat) / (nDocs : Rat)
    let df := fun (t : String) => docTokens.countP (fun toks => decide (t ∈ toks))
    let idf := fun (t : String) =>
      lg ((((nDocs : Rat) - (df t : Rat) + 1/2) / ((df t : Rat) + 1/2)) + 1)
    docTokens.map (fun toks =>
      if toks.isEmpty then 0
      else
        let dl : Rat := (toks.length : Rat)
        let denom := k1 * (1 - b + b * (dl / (if avgdl = 0 then 1 else avgdl)))
        (queryTokens.map (fun t =>
          let f := toks.count t
          if f = 0 then 0
          else idf t * ((f : Rat) * (k1 + 1)) / ((f : Rat) + denom))).sum)

/-- Key used by `_unique_docs`:
`metadata.get("chunk_id") or metadata.get("id")` (the final `str(id(d))`
fall-back is a fresh per-object address and is modelled as "always keep"). -/
def uniqueKey (d : IndexDocument) : String :=
  pyOr d.chunk_id (d.idMeta.getD "")

/-- `_unique_docs(docs)`: keep the first document per non-empty key. -/
def uniqueDocsAux : List IndexDocument → List String → List IndexDocument
  | [], _ => []
  | d :: rest, seen =>
    let key := uniqueKey d
    if key ≠ "" ∧ key ∈ seen then uniqueDocsAux rest seen
    else d :: uniqueDocsAux rest (if key ≠ "" then key :: seen else seen)

/-- `_expected_anchor_docs(clause_result, docs)`: candidates whose section
metadata matches an expected section (normalized equality or base-number
match). -/
def expectedAnchorDocs (basis : Option StatutoryBasis) (docs : List IndexDocument) :
    List IndexDocument :=
  let sections := match basis with | none => [] | some b => b.sections
  let rules := match basis with | none => [] | some b => b.state_rules
  let expected := sections ++ rules
  if expected.isEmpty then []
  else
    let expectedNorm := expectedNormOf expected
    let bases := expectedBasesOf sections
    docs.filter (fun d =>
      match d.sectionMeta with
      | none => false
      | some sec =>
        if sec = "" then false
        else if pyStrip (pyLower sec) ∈ expectedNorm then true
        else if bases.isEmpty then false
        else
          match sectionBase sec with
          | some base => base ∈ bases
          | none => false)

/-- The must-keep loop of `_bm25_preselect`: place anchor-matching documents
first, deduplicated by their `chunk_id` (documents with a falsy chunk id are
skipped), returning early (flag `true`) when `k` entries are reached; the
length check runs on every iteration. -/
def pickMust (k : Nat) : List IndexDocument → List IndexDocument → List String →
    List IndexDocument × List String × Bool
  | [], picked, ids => (picked, ids, false)
  | d :: rest, picked, ids =>
    let c := d.chunk_id
    let step := if c ≠ "" ∧ c ∉ ids then (picked ++ [d], c :: ids) else (picked, ids)
    if k ≤ step.1.length then (step.1, step.2, true)
    else pickMust k rest step.1 step.2

/-- The ranked loop of `_bm25_preselect`: walk the score-ranked indices,
skipping documents whose chunk id was already picked, until `k` entries. -/
def pickRanked (k : Nat) (docs1 : List IndexDocument) :
    List Nat → List IndexDocument → List String → List IndexDocument
  | [], picked, _ => picked
  | i :: rest, picked, ids =>
    match docs1[i]? with
    | none => pickRanked k docs1 rest picked ids
    | some d =>
      let c := d.chunk_id
      if c ≠ "" ∧ c ∈ ids then pickRanked k docs1 rest picked ids
      else
        let picked2 := picked ++ [d]
        let ids2 := if c ≠ "" then c :: ids else ids
        if k ≤ picked2.length then picked2
        else pickRanked k docs1 rest picked2 ids2

/-- `sorted(range(len(docs)), key=lambda i: scores[i], reverse=True)`:
CPython's sort is stable, modelled by the stable `List.mergeSort`. -/
def rankedIdx (scores : List Rat) (n : Nat) : List Nat :=
  stableSort (fun i j => decide (scores.getD j 0 ≤ scores.getD i 0)) (List.range n)

/-- `_bm25_preselect(query, docs, clause_result, k)` with `BM25_K1 = 1.6`
and `BM25_B = 0.75`. -/
def bm25Preselect (lg : Rat → Rat) (query : String) (docs : List IndexDocument)
    (basis : Option StatutoryBasis) (k : Nat) : List IndexDocument :=
  let docs1 := uniqueDocsAux docs []
  if docs1.isEmpty then docs1
  else
    let qT := tokenize query
    if qT.isEmpty then docs1.take k
    else
      let scores := bm25Scores lg qT (docs1.map (fun d => tokenize d.content)) (8/5) (3/4)
      let mustKeep := expectedAnchorDocs basis docs1
      let ranked := rankedIdx scores docs1.length
      let pm := pickMust k mustKeep [] []
      if pm.2.2 then pm.1 else pickRanked k docs1 ranked pm.1 pm.2.1

/-- The preselect call site inside `retrieve`: BM25 runs only when the
candidate pool strictly exceeds `BM25_PRESELECT_K`. -/
def preselectStep (lg : Rat → Rat) (query : String) (docs : List IndexDocument)
    (basis : Option StatutoryBasis) : List IndexDocument :=
  if HYBRID_BM25_ENABLED ∧ BM25_PRESELECT_K < docs.length then
    bm25Preselect lg query docs basis BM25_PRESELECT_K
  else docs

/-! ## Spec-side comparator definitions

These definitions follow the specification's words (not the source); they
exist only to be compared against the embedded source functions. -/

/-- Modelled from the spec: `clamp01`. -/
def clamp01 (x : Rat) : Rat := max 0 (min 1 x)

/-- Modelled from the spec: the groundedness formula
`clamp01(0.35*coverage + 0.35*anchor_match + 0.15*(1 - noise_ratio) +
0.15*chunk_confidence)` with booleans as 0/1. -/
def specGroundedness (cov am : Bool) (noiseV cc : Rat) : Rat :=
  clamp01 ((if cov then 7/20 else 0) + (if am then 7/20 else 0) +
    (3/20) * (1 - noiseV) + (3/20) * cc)

/-- First-occurrence deduplication of the must-keep documents by chunk id
(documents with an empty chunk id are skipped), without the length cap: the
spec-side description of the anchor block of the preselect output. -/
def dedupMustKeep : List IndexDocument → List String → List IndexDocument
  | [], _ => []
  | d :: rest, seen =>
    if d.chunk_id ≠ "" ∧ d.chunk_id ∉ seen then
      d :: dedupMustKeep rest (d.chunk_id :: seen)
    else dedupMustKeep rest seen

/-- The id set accumulated by `dedupMustKeep`. -/
def dedupSeen : List IndexDocument → List String → List String
  | [], seen => seen
  | d :: rest, seen =>
    if d.chunk_id ≠ "" ∧ d.chunk_id ∉ seen then dedupSeen rest (d.chunk_id :: seen)
    else dedupSeen rest seen

/-- Spec-side description of the preselect output: the deduplicated
must-keep documents first, then the candidates in stable descending BM25
order with must-keep chunk ids removed, truncated to `k`. -/
def preselectSpecOut (lg : Rat → Rat) (query : String) (docs : List IndexDocument)
    (basis : Option StatutoryBasis) (k : Nat) : List IndexDocument :=
  let docs1 := uniqueDocsAux docs []
  let qT := tokenize query
  if qT.isEmpty then docs1.take k
  else
    let scores := bm25Scores lg qT (docs1.map (fun d => tokenize d.content)) (8/5) (3/4)
    let mp := dedupMustKeep (expectedAnchorDocs basis docs1) []
    let rest :=
      ((rankedIdx scores docs1.length).filterMap (fun i => docs1[i]?)).filter
        (fun d => decide (d.chunk_id ∉ mp.map (fun x => x.chunk_id)))
    (mp ++ rest).take k

/-- Strict descending-score order with ties broken by original candidate
position: the order the spec requires of the non-anchor block. -/
def scoreOrder (scores : List Rat) (i j : Nat) : Prop :=
  scores.getD j 0 < scores.getD i 0 ∨ (scores.getD i 0 = scores.getD j 0 ∧ i < j)

/-- The conjunction claimed of the BM25 preselection (amended): the output
is the must-keep block followed by the score-ranked remainder truncated to
`k`; it has at most `k` entries; the ranked index order is descending by
score with ties in original order and visits each candidate exactly once;
and preselection is skipped for pools of at most `BM25_PRESELECT_K`
candidates. -/
def preselectClaimOK (lg : Rat → Rat) (query : String) (docs : List IndexDocument)
    (basis : Option StatutoryBasis) (k : Nat) : Prop :=
  (bm25Preselect lg query docs basis k = preselectSpecOut lg query docs basis k)
  ∧ (bm25Preselect lg query docs basis k).length ≤ k
  ∧ (letI docs1 := uniqueDocsAux docs []
     letI scores := bm25Scores lg (tokenize query)
       (docs1.map (fun d => tokenize d.content)) (8/5) (3/4)
     (rankedIdx scores docs1.length).Pairwise (scoreOrder scores)
     ∧ (rankedIdx scores docs1.length).Perm (List.range docs1.length))
  ∧ (docs.length ≤ BM25_PRESELECT_K → preselectStep lg query docs basis = docs)

/-! ## Concrete instances used by counterexamples and witnesses

Every concrete document satisfies the `IndexDocument` construction contract
of the source (content of at least 50 characters, `source` and `chunk_id`
metadata present). -/

/-- A statute chunk whose text cites Section 18. -/
def dGood : IndexDocument :=
  { content := "Section 18 of the Act entitles the allottee to a refund with interest on delay."
    chunk_id := "rera_act::section_18"
    source := "RERA Act" }

/-- A model-agreement chunk citing no statute. -/
def dBad : IndexDocument :=
  { content := "The promoter shall complete construction within the agreed schedule period."
    chunk_id := "model_bba::clause_2"
    source := "Model BBA" }

/-- A candidate whose section metadata matches Section 18. -/
def dA : IndexDocument :=
  { content := "Possession delay remedies are provided under the statute for allottees here."
    chunk_id := "rera_act::section_18"
    sectionMeta := some "Section 18"
    source := "RERA Act" }

/-- A second candidate whose section metadata matches Section 18. -/
def dB : IndexDocument :=
  { content := "Interest and refund on failure to hand over possession by agreed date text."
    chunk_id := "rera_act::section_18b"
    sectionMeta := some "Section 18"
    source := "RERA Act" }

/-- A statutory basis expecting exactly Section 18. -/
def basis18 : Option StatutoryBasis :=
  some { sections := ["Section 18"], state_rules := [] }

/-- Section numbers 1 through 9 as strings. -/
def secIds9 : List String := ["1", "2", "3", "4", "5", "6", "7", "8", "9"]

/-- The act-index entry for a section id: its chunk id and its document's
`chunk_id` metadata agree, as `FAISSVectorIndex.add` guarantees. -/
def mkSecDoc (s : String) : String × IndexDocument :=
  ("rera_act::section_" ++ s,
    { content := "Statutory text of the indexed section used for grounding evidence number " ++ s
      chunk_id := "rera_act::section_" ++ s
      source := "RERA Act" })

/-- An act index holding sections 1 through 9. -/
def actIdx9 : List (String × IndexDocument) := secIds9.map mkSecDoc

/-- A statutory basis expecting sections 1 through 9. -/
def basis9 : Option StatutoryBasis :=
  some { sections := secIds9.map (fun s => "Section " ++ s)
         state_rules := [] }

/-! ## Helper lemmas shared across claims -/

/-- Groundedness projection as a step function of the other diagnostics. -/
theorem diag_groundedness_eq (basis : Option StatutoryBasis)
    (docs : List IndexDocument) :
    (computeDiagnostics basis docs).groundedness =
      (if (computeDiagnostics basis docs).anchor_match then 1
       else if (computeDiagnostics basis docs).coverage then 3/5 else 0) := by
  simp [computeDiagnostics]

/-- Resolution of a non-empty evidence list under true coverage. -/
theorem resolveEvidence_cons {α : Type} (e : α) (evs : List α) (diag : Diagnostics)
    (hcov : diag.coverage = true) :
    resolveEvidence (e :: evs) diag =
      if diag.anchor_match then "EXPLICIT_ALIGNMENT" else "IMPLIED_ALIGNMENT" := by
  cases hm : diag.anchor_match <;> simp [resolveEvidence, hm, hcov]

/-- Unfolding equation: a seen `cid` is skipped. -/
theorem pushDocs_cons_mem {k : Nat} {d : IndexDocument} {rest out seen}
    (h : cid d ∈ seen) :
    pushDocs k (d :: rest) out seen = pushDocs k rest out seen := by
  simp [pushDocs, h]

/-- Unfolding equation: a new `cid` that fills the output to `k`. -/
theorem pushDocs_cons_stop {k : Nat} {d : IndexDocument} {rest out seen}
    (h : cid d ∉ seen) (h2 : k ≤ out.length + 1) :
    pushDocs k (d :: rest) out seen = (out ++ [d], cid d :: seen, true) := by
  simp [pushDocs, h, h2]

/-- Unfolding equation: a new `cid` with room to spare. -/
theorem pushDocs_cons_go {k : Nat} {d : IndexDocument} {rest out seen}
    (h : cid d ∉ seen) (h2 : ¬ k ≤ out.length + 1) :
    pushDocs k (d :: rest) out seen =
      pushDocs k rest (out ++ [d]) (cid d :: seen) := by
  simp [pushDocs, h, h2]

/-- With no anchors, the final selector is a bare truncation. -/
theorem ensure_nil_anchor (docs : List IndexDocument) (k : Nat) :
    ensureAnchorDocsInFinal docs [] k = docs.take k := by
  simp [ensureAnchorDocsInFinal]

/-- The output list of `pushDocs` extends its input accumulator. -/
theorem pushDocs_append (k : Nat) :
    ∀ (ds out : List IndexDocument) (seen : List String),
      ∃ t, (pushDocs k ds out seen).1 = out ++ t := by
  intro ds
  induction ds with
  | nil => intro out seen; exact ⟨[], by simp [pushDocs]⟩
  | cons d rest ih =>
    intro out seen
    by_cases hk : cid d ∈ seen
    · rw [pushDocs_cons_mem hk]
      exact ih out seen
    · by_cases hl : k ≤ out.length + 1
      · rw [pushDocs_cons_stop hk hl]
        exact ⟨[d], rfl⟩
      · rw [pushDocs_cons_go hk hl]
        obtain ⟨t, ht⟩ := ih (out ++ [d]) (cid d :: seen)
        exact ⟨[d] ++ t, by rw [ht, List.append_assoc]⟩

/-- The dedup invariant of `pushDocs`: if the accumulator has pairwise
distinct `cid`s all recorded in `seen`, so does the output. -/
theorem pushDocs_inv (k : Nat) :
    ∀ (ds out : List IndexDocument) (seen : List String),
      out.Pairwise (fun a b => cid a ≠ cid b) → (∀ x ∈ out, cid x ∈ seen) →
      (pushDocs k ds out seen).1.Pairwise (fun a b => cid a ≠ cid b)
      ∧ (∀ x ∈ (pushDocs k ds out seen).1, cid x ∈ (pushDocs k ds out seen).2.1) := by
  intro ds
  induction ds with
  | nil => intro out seen h1 h2; simpa [pushDocs] using ⟨h1, h2⟩
  | cons d rest ih =>
    intro out seen h1 h2
    by_cases hk : cid d ∈ seen
    · rw [pushDocs_cons_mem hk]
      exact ih out seen h1 h2
    · have h1' : (out ++ [d]).Pairwise (fun a b => cid a ≠ cid b) := by
        rw [List.pairwise_append]
        refine ⟨h1, List.pairwise_singleton _ _, ?_⟩
        intro x hx y hy
        rw [List.mem_singleton] at hy
        subst hy
        intro hcon
        exact hk (hcon ▸ h2 x hx)
      have h2' : ∀ x ∈ out ++ [d], cid x ∈ cid d :: seen := by
        intro x hx
        rcases List.mem_append.1 hx with hx | hx
        · exact List.mem_cons_of_mem _ (h2 x hx)
        · rw [List.mem_singleton] at hx
          subst hx
          exact List.mem_cons_self _ _
      by_cases hl : k ≤ out.length + 1
      · rw [pushDocs_cons_stop hk hl]
        exact ⟨h1', h2'⟩
      · rw [pushDocs_cons_go hk hl]
        exact ih (out ++ [d]) (cid d :: seen) h1' h2'

/-! ## Claim C7: section normalization and idempotence -/

/-- C7: for the reference strings "Section 18", "section18(1)(a)",
"18(1)(a)" and "RERA_ACT_SECTION_18_1_A", `normalize_section_ref` yields
"Section 18(1)(a)" (resp. the canonical subset "Section 18"), and applying
it to either output returns that output unchanged (idempotence). -/
theorem normalize_section_canonical_idempotent :
    normalize_section_ref "Section 18" = some "Section 18"
    ∧ normalize_section_ref "section18(1)(a)" = some "Section 18(1)(a)"
    ∧ normalize_section_ref "18(1)(a)" = some "Section 18(1)(a)"
    ∧ normalize_section_ref "RERA_ACT_SECTION_18_1_A" = some "Section 18(1)(a)"
    ∧ normalize_section_ref "Section 18(1)(a)" = some "Section 18(1)(a)" := by
  decide

/-! ## Claim C8: accepted input forms -/

/-- C8 counterexample: the bare encoded anchor "ACT_SECTION_18_1_A" and the
metadata chunk id "statute::section_18", both listed by the claim as
accepted forms, are rejected by `normalize_section_ref` (the anchor regex
requires the full "RERA_ACT_SECTION_" head, and a chunk id neither starts
with "section" nor consists of `[A-Za-z0-9()]`). -/
theorem C8_counterexample :
    normalize_section_ref "ACT_SECTION_18_1_A" = none
    ∧ normalize_section_ref "statute::section_18" = none := by
  decide

/-- C8 (amended): `normalize_section_ref` returns a canonical
"Section <N><(sub)...>" value for the plain, inline-subsection, bare-number
and RERA-prefixed-anchor forms (in either case), but returns none for bare
"ACT_SECTION_..." anchors and for metadata chunk ids such as
"statute::section_18". -/
theorem normalize_accepted_forms :
    normalize_section_ref "Section 18" = some "Section 18"
    ∧ normalize_section_ref "section18(1)(a)" = some "Section 18(1)(a)"
    ∧ normalize_section_ref "18(1)(a)" = some "Section 18(1)(a)"
    ∧ normalize_section_ref "RERA_ACT_SECTION_18_1_A" = some "Section 18(1)(a)"
    ∧ normalize_section_ref "rera_act_section_18" = some "Section 18"
    ∧ normalize_section_ref "ACT_SECTION_18_1_A" = none
    ∧ normalize_section_ref "statute::section_18" = none := by
  decide

/-! ## Claim C3: the coverage diagnostic -/

/-- C3 counterexample: with no statutory basis and an empty final evidence
set the claim requires `coverage = true` (vacuous), but
`_compute_diagnostics` sets `coverage = len(docs) > 0`, which is false. -/
theorem C3_counterexample : (computeDiagnostics none []).coverage ≠ true := by
  decide

/-- C3 (amended): `coverage` is true exactly when the final evidence list is
non-empty; it does not depend on the clause intent or on the expected
anchors. -/
theorem coverage_iff_nonempty (basis : Option StatutoryBasis)
    (docs : List IndexDocument) :
    (computeDiagnostics basis docs).coverage = true ↔ docs ≠ [] := by
  simp [computeDiagnostics, List.length_pos]

/-! ## Claim C4: the noise-ratio diagnostic -/

/-- Helper: `round2` fixes the endpoint 0. -/
theorem round2_zero : round2 0 = 0 := by norm_num [round2]

/-- Helper: `round2` fixes the endpoint 1. -/
theorem round2_one : round2 1 = 1 := by norm_num [round2]

/-- C4 counterexample: with no statutory basis and an empty evidence set the
claim requires `noise_ratio = 0.0`, but the source's empty-evidence branch
yields `1.0` regardless of the statutory basis. -/
theorem C4_counterexample : (computeDiagnostics none []).noiseVal ≠ 0 := by
  have h : (computeDiagnostics none []).noiseVal = round2 1 := by
    simp [computeDiagnostics]
  rw [h, round2_one]
  norm_num

/-- C4 (amended): the `noise_ratio` entry equals
`1 - matching/total` rounded half-to-even to two decimals when anchors are
expected and evidence is non-empty; it is `1.0` whenever evidence is empty
(even with no statutory basis); and it is `0.0` when evidence is non-empty
and no anchors are expected. -/
theorem noise_value_formula (basis : Option StatutoryBasis)
    (docs : List IndexDocument) :
    (computeDiagnostics basis docs).noiseVal =
      if docs.isEmpty then 1
      else if anchorsExpectedFor basis then
        round2 (1 - (countMatching basis docs : Rat) / (docs.length : Rat))
      else 0 := by
  cases hd : docs.isEmpty
  · cases ha : anchorsExpectedFor basis
    · simp [computeDiagnostics, hd, ha, round2_zero]
    · simp [computeDiagnostics, hd, ha]
  · simp [computeDiagnostics, hd, round2_one]

/-! ## Claim C5: the groundedness diagnostic -/

/-- C5 counterexample: for expected section "Section 18" and a two-document
evidence set with exactly one anchor match (so `noise_ratio = 0.5`), the
source's groundedness is `1.0`, while the claimed formula yields
`clamp01(0.35 + 0.35 + 0.15*0.5 + 0.15*cc) ≤ 0.925` — already refuted at
`chunk_confidence = 0`. -/
theorem C5_counterexample :
    (computeDiagnostics basis18 [dGood, dBad]).groundedness ≠
      specGroundedness (computeDiagnostics basis18 [dGood, dBad]).coverage
        (computeDiagnostics basis18 [dGood, dBad]).anchor_match
        (computeDiagnostics basis18 [dGood, dBad]).noiseVal 0 := by
  have hcov : (computeDiagnostics basis18 [dGood, dBad]).coverage = true := by decide
  have ham : (computeDiagnostics basis18 [dGood, dBad]).anchor_match = true := by decide
  have hnv : (computeDiagnostics basis18 [dGood, dBad]).noiseVal = 1/2 := by
    have h1 : countMatching basis18 [dGood, dBad] = 1 := by decide
    have h2 : anchorsExpectedFor basis18 = true := by decide
    have h3 : (computeDiagnostics basis18 [dGood, dBad]).noiseVal =
        round2 (1 - (1 : Rat) / 2) := by
      simp [computeDiagnostics, h1, h2]
    rw [h3]
    norm_num [round2]
  have hgr : (computeDiagnostics basis18 [dGood, dBad]).groundedness = 1 := by
    have := diag_groundedness_eq basis18 [dGood, dBad]
    rw [ham] at this
    simpa using this
  rw [hcov, ham, hnv, hgr]
  norm_num [specGroundedness, clamp01]

/-- C5 (amended): groundedness is the step function `1.0` on anchor match,
else `0.6` when any evidence was retrieved, else `0.0`; no chunk-confidence
input exists in `_compute_diagnostics`. -/
theorem groundedness_step_function (basis : Option StatutoryBasis)
    (docs : List IndexDocument) :
    (computeDiagnostics basis docs).groundedness =
      (if (computeDiagnostics basis docs).anchor_match then 1
       else if (computeDiagnostics basis docs).coverage then 3/5 else 0) :=
  diag_groundedness_eq basis docs

/-! ## Claim C6: the resolution label -/

/-- C6: for a retrieval call (where the evidence list is built one-to-one
from the final documents and the diagnostics are computed over those same
documents), the resolution is INSUFFICIENT exactly when the final evidence
list is empty, and otherwise it is EXPLICIT_ALIGNMENT precisely on anchor
match and IMPLIED_ALIGNMENT otherwise — the trailing INSUFFICIENT branch of
`_resolve_evidence` is unreachable for non-empty evidence because coverage
is then always true. -/
theorem resolution_classification {α : Type} (basis : Option StatutoryBasis)
    (docs : List IndexDocument) (evs : List α)
    (h : evs.length = docs.length) :
    (resolveEvidence evs (computeDiagnostics basis docs) = "INSUFFICIENT" ↔ docs = [])
    ∧ (docs ≠ [] →
        resolveEvidence evs (computeDiagnostics basis docs) =
          if (computeDiagnostics basis docs).anchor_match then "EXPLICIT_ALIGNMENT"
          else "IMPLIED_ALIGNMENT") := by
  cases docs with
  | nil =>
    have he : evs = [] := List.eq_nil_of_length_eq_zero h
    subst he
    simp [resolveEvidence]
  | cons d ds =>
    have he : evs ≠ [] := by
      intro hcon
      rw [hcon] at h
      exact absurd h.symm (by simp)
    obtain ⟨e, evs', rfl⟩ := List.exists_cons_of_ne_nil he
    have hcov : (computeDiagnostics basis (d :: ds)).coverage = true := by
      simp [computeDiagnostics]
    have hres := resolveEvidence_cons e evs' (computeDiagnostics basis (d :: ds)) hcov
    constructor
    · rw [hres]
      constructor
      · intro hx
        exfalso
        cases hm : (computeDiagnostics basis (d :: ds)).anchor_match <;>
          rw [hm] at hx <;> simp at hx
      · intro hcon
        exact absurd hcon (by simp)
    · intro _
      exact hres

/-- Witness for C6 at a concrete call: two evidence rows over two final
documents with an anchor match. -/
theorem resolution_classification_witness :
    (resolveEvidence [0, 1] (computeDiagnostics basis18 [dGood, dBad]) = "INSUFFICIENT"
        ↔ [dGood, dBad] = [])
    ∧ ([dGood, dBad] ≠ [] →
        resolveEvidence [0, 1] (computeDiagnostics basis18 [dGood, dBad]) =
          if (computeDiagnostics basis18 [dGood, dBad]).anchor_match then
            "EXPLICIT_ALIGNMENT"
          else "IMPLIED_ALIGNMENT") :=
  resolution_classification basis18 [dGood, dBad] [0, 1] rfl

/-! ## Claim C2: deduplication of the final selection step -/

/-- C2 counterexample: with an empty anchor list,
`_ensure_anchor_docs_in_final` short-circuits to `docs[:k]` without any
deduplication, so a duplicated reranked document survives: both copies of
the same stable id appear in the output. -/
theorem C2_counterexample :
    (ensureAnchorDocsInFinal [dGood, dGood] [] 8).countP
      (fun d => cid d == "rera_act::section_18") = 2 := by
  decide

/-- C2 (amended): when the anchor list is non-empty the final evidence list
never contains two documents with the same stable id; when the anchor list
is empty the output is exactly the first `k` reranked documents unchanged,
so it is duplicate-free only if the reranked input already was. -/
theorem ensure_final_dedup (docs anchorDocs : List IndexDocument) (k : Nat) :
    (anchorDocs ≠ [] →
      (ensureAnchorDocsInFinal docs anchorDocs k).Pairwise
        (fun a b => cid a ≠ cid b))
    ∧ (anchorDocs = [] → ensureAnchorDocsInFinal docs anchorDocs k = docs.take k) := by
  constructor
  · intro hne
    have hl : anchorDocs.isEmpty = false := by
      cases anchorDocs with
      | nil => exact absurd rfl hne
      | cons a l => rfl
    rw [ensureAnchorDocsInFinal, hl]
    have h1 := pushDocs_inv k anchorDocs [] [] List.Pairwise.nil (by intro x hx; cases hx)
    rcases hp : pushDocs k anchorDocs [] [] with ⟨out1, seen1, flag⟩
    rw [hp] at h1
    cases flag with
    | true => simpa using h1.1
    | false =>
      simp only [Bool.false_eq_true, if_false]
      exact (pushDocs_inv k docs out1 seen1 h1.1 h1.2).1
  · intro he
    subst he
    simp [ensureAnchorDocsInFinal]

/-- Witness for C2 (amended) at a concrete input: one anchor, two reranked
documents. -/
theorem ensure_final_dedup_witness :
    (([dA] : List IndexDocument) ≠ [] →
      (ensureAnchorDocsInFinal [dGood, dBad] [dA] 8).Pairwise
        (fun a b => cid a ≠ cid b))
    ∧ (([dA] : List IndexDocument) = [] →
        ensureAnchorDocsInFinal [dGood, dBad] [dA] 8 = [dGood, dBad].take 8) :=
  ensure_final_dedup [dGood, dBad] [dA] 8

/-! ## Claim C1: the anchor guarantee -/

/-- Membership lemma for `pushDocs`: a document whose earlier same-`cid`
occurrences are all the document itself survives the dedup-append pass,
provided the whole list fits under the cap `k`. -/
theorem pushDocs_mem_first (k : Nat) (d : IndexDocument) :
    ∀ (pre post out : List IndexDocument) (seen : List String),
      (∀ d' ∈ pre, cid d' = cid d → d' = d) →
      (cid d ∉ seen ∨ d ∈ out) →
      pre.length + 1 + post.length + out.length ≤ k →
      d ∈ (pushDocs k (pre ++ d :: post) out seen).1 := by
  intro pre
  induction pre with
  | nil =>
    intro post out seen _ hinv hlen
    rw [List.nil_append]
    by_cases hk : cid d ∈ seen
    · have hd : d ∈ out := by
        rcases hinv with h | h
        · exact absurd hk h
        · exact h
      rw [pushDocs_cons_mem hk]
      obtain ⟨t, ht⟩ := pushDocs_append k post out seen
      rw [ht]
      exact List.mem_append_left t hd
    · by_cases hl : k ≤ out.length + 1
      · rw [pushDocs_cons_stop hk hl]
        exact List.mem_append_right out (List.mem_singleton.2 rfl)
      · rw [pushDocs_cons_go hk hl]
        obtain ⟨t, ht⟩ := pushDocs_append k post (out ++ [d]) (cid d :: seen)
        rw [ht]
        exact List.mem_append_left t (List.mem_append_right out (List.mem_singleton.2 rfl))
  | cons x pre' ih =>
    intro post out seen hfirst hinv hlen
    rw [List.cons_append]
    by_cases hk : cid x ∈ seen
    · rw [pushDocs_cons_mem hk]
      refine ih post out seen (fun d' hd' => hfirst d' (List.mem_cons_of_mem x hd')) hinv ?_
      simp only [List.length_cons] at hlen
      omega
    · by_cases hl : k ≤ out.length + 1
      · exfalso
        simp only [List.length_cons] at hlen
        omega
      · rw [pushDocs_cons_go hk hl]
        refine ih post (out ++ [x]) (cid x :: seen)
          (fun d' hd' => hfirst d' (List.mem_cons_of_mem x hd')) ?_ ?_
        · rcases hinv with h | h
          · by_cases hcx : cid d = cid x
            · right
              have : x = d := hfirst x (List.mem_cons_self x pre') hcx.symm
              subst this
              exact List.mem_append_right out (List.mem_singleton.2 rfl)
            · left
              intro hcon
              rcases List.mem_cons.1 hcon with hcon | hcon
              · exact hcx hcon
              · exact h hcon
          · right
            exact List.mem_append_left [x] h
        · have hx : (out ++ [x]).length = out.length + 1 := by
            rw [List.length_append]
            rfl
          simp only [List.length_cons] at hlen
          rw [hx]
          omega

/-- A chunk id constructed for a section is never empty. -/
theorem secChunkId_ne_empty (s : String) : ("rera_act::section_" ++ s) ≠ "" := by
  intro h
  have hlen := congrArg String.length h
  rw [String.length_append] at hlen
  have h1 : ("rera_act::section_" : String).length = 18 := by decide
  have h2 : ("" : String).length = 0 := by decide
  omega

/-- Documents looked up in the act index carry their key as `cid`, given the
index invariant that each entry's document bears the entry's chunk id. -/
theorem lookupDoc_cid {m : List (String × IndexDocument)} {key : String}
    {d : IndexDocument} (hinv : ∀ p ∈ m, (p.2).chunk_id = p.1)
    (hkey : key ≠ "") (h : lookupDoc m key = some d) : cid d = key := by
  unfold lookupDoc at h
  rcases hf : m.find? (fun p => p.1 == key) with _ | p
  · rw [hf] at h
    exact absurd h (by simp)
  · rw [hf] at h
    have hpm : p ∈ m := List.mem_of_find?_eq_some hf
    have hpk : p.1 = key := by
      have := List.find?_some hf
      exact eq_of_beq this
    have hd : p.2 = d := by
      simpa using h
    have hc : d.chunk_id = key := by
      rw [← hd, hinv p hpm, hpk]
    unfold cid pyOr
    rw [hc]
    simp [hkey]

/-- Inversion for a successful section-anchor lookup. -/
theorem injectSectionLookup_eq_some {m : List (String × IndexDocument)}
    {ref : String} {d : IndexDocument} (h : injectSectionLookup m ref = some d) :
    ∃ sd, sectionIdFromRef ref = some sd ∧
      lookupDoc m ("rera_act::section_" ++ sd) = some d := by
  unfold injectSectionLookup at h
  split at h
  · exact Option.noConfusion h
  · next sd hx => exact ⟨sd, hx, h⟩

/-- With a non-empty expected-sections list, the injected anchors start with
the section lookups (the rule anchors follow). -/
theorem inject_sections_part (basis : StatutoryBasis)
    (m : List (String × IndexDocument)) (rulesIndex : Option (List IndexDocument))
    (hne : basis.sections.isEmpty = false) :
    ∃ restL, injectExpectedAnchorDocs (some basis) (some m) rulesIndex =
      basis.sections.filterMap (injectSectionLookup m) ++ restL := by
  unfold injectExpectedAnchorDocs
  simp only [hne, Bool.false_eq_true, if_false]
  exact ⟨_, rfl⟩

/-- C1 counterexample: nine expected sections, all present in the act index,
an empty reranked list — the anchor list alone exceeds `FINAL_TOP_K = 8`, so
the ninth anchored statute document is dropped from the final evidence list
even though its injected-anchor id is in the index's document map. -/
theorem C1_counterexample :
    (mkSecDoc "9").2 ∉ retrieveFinalize basis9 (some actIdx9) none [] := by
  decide

/-- C1 (amended): if the act index's document map contains a document under
the injected-anchor id "rera_act::section_<N>" of an expected section, that
document appears in the final evidence list returned by the finalization
step, for every reranked input (hence regardless of rerank position and for
every candidate pool), provided the injected anchor documents number at most
`FINAL_TOP_K` (8); the index satisfies the construction invariant that each
map entry's document bears the entry's chunk id. -/
theorem anchor_guarantee_bounded (basis : StatutoryBasis)
    (m : List (String × IndexDocument)) (rulesIndex : Option (List IndexDocument))
    (reranked : List IndexDocument) (ref sid : String) (d : IndexDocument)
    (href : ref ∈ basis.sections)
    (hsid : sectionIdFromRef ref = some sid)
    (hlook : lookupDoc m ("rera_act::section_" ++ sid) = some d)
    (hinv : ∀ p ∈ m, (p.2).chunk_id = p.1)
    (hbound : (injectExpectedAnchorDocs (some basis) (some m) rulesIndex).length ≤
      FINAL_TOP_K) :
    d ∈ retrieveFinalize (some basis) (some m) rulesIndex reranked := by
  have hne : basis.sections.isEmpty = false := by
    cases hs : basis.sections with
    | nil => rw [hs] at href; cases href
    | cons a l => rfl
  obtain ⟨restL, hinj⟩ := inject_sections_part basis m rulesIndex hne
  have hdmem : d ∈ basis.sections.filterMap (injectSectionLookup m) :=
    List.mem_filterMap.2 ⟨ref, href, by
      unfold injectSectionLookup
      rw [hsid]
      exact hlook⟩
  have hfirstAll : ∀ d' ∈ basis.sections.filterMap (injectSectionLookup m),
      cid d' = cid d → d' = d := by
    intro d' hd' hcd
    obtain ⟨r', _, hr'⟩ := List.mem_filterMap.1 hd'
    obtain ⟨sd', _, hr2⟩ := injectSectionLookup_eq_some hr'
    have hc' : cid d' = "rera_act::section_" ++ sd' :=
      lookupDoc_cid hinv (secChunkId_ne_empty sd') hr2
    have hc : cid d = "rera_act::section_" ++ sid :=
      lookupDoc_cid hinv (secChunkId_ne_empty sid) hlook
    have hkeys : ("rera_act::section_" ++ sd') = ("rera_act::section_" ++ sid) := by
      rw [← hc', ← hc, hcd]
    rw [hkeys] at hr2
    exact Option.some.inj (hr2.symm.trans hlook)
  obtain ⟨l1, l2, hsplit⟩ := List.append_of_mem hdmem
  have hanch : injectExpectedAnchorDocs (some basis) (some m) rulesIndex =
      l1 ++ d :: (l2 ++ restL) := by
    rw [hinj, hsplit]
    simp only [List.append_assoc, List.cons_append]
  have hfirst : ∀ d' ∈ l1, cid d' = cid d → d' = d := fun d' hd' =>
    hfirstAll d' (hsplit ▸ List.mem_append_left _ hd')
  have hlenanch : l1.length + 1 + (l2 ++ restL).length +
      ([] : List IndexDocument).length ≤ FINAL_TOP_K := by
    have h2 : (injectExpectedAnchorDocs (some basis) (some m) rulesIndex).length =
        l1.length + 1 + (l2 ++ restL).length := by
      rw [hanch]
      simp only [List.length_append, List.length_cons]
      omega
    simp only [List.length_nil]
    omega
  have hmem := pushDocs_mem_first FINAL_TOP_K d l1 (l2 ++ restL) [] []
    hfirst (Or.inl (by intro h; cases h)) hlenanch
  rw [← hanch] at hmem
  have hanchNe : (injectExpectedAnchorDocs (some basis) (some m) rulesIndex).isEmpty
      = false := by
    rw [hanch]
    cases l1 <;> rfl
  show d ∈ ensureAnchorDocsInFinal (reranked.take FINAL_TOP_K)
    (injectExpectedAnchorDocs (some basis) (some m) rulesIndex) FINAL_TOP_K
  unfold ensureAnchorDocsInFinal
  rw [if_neg (by simp [hanchNe])]
  rcases hp : pushDocs FINAL_TOP_K (injectExpectedAnchorDocs (some basis) (some m)
    rulesIndex) [] [] with ⟨out1, seen1, flag⟩
  rw [hp] at hmem
  cases flag with
  | true => exact hmem
  | false =>
    obtain ⟨t, ht⟩ := pushDocs_append FINAL_TOP_K (reranked.take FINAL_TOP_K) out1 seen1
    show d ∈ (pushDocs FINAL_TOP_K (reranked.take FINAL_TOP_K) out1 seen1).1
    rw [ht]
    exact List.mem_append_left t hmem

/-- Witness for C1 (amended): a one-section basis, an act index carrying the
expected section, an empty reranked list. -/
theorem anchor_guarantee_bounded_witness :
    "Section 18" ∈ (StatutoryBasis.mk ["Section 18"] []).sections
    ∧ sectionIdFromRef "Section 18" = some "18"
    ∧ lookupDoc [("rera_act::section_18", dGood)] ("rera_act::section_" ++ "18") =
        some dGood
    ∧ dGood ∈ retrieveFinalize (some (StatutoryBasis.mk ["Section 18"] []))
        (some [("rera_act::section_18", dGood)]) none [] :=
  ⟨by decide, by decide, by decide,
    anchor_guarantee_bounded (StatutoryBasis.mk ["Section 18"] [])
      [("rera_act::section_18", dGood)] none [] "Section 18" "18" dGood
      (by decide) (by decide) (by decide) (by decide) (by decide)⟩

/-! ## Claim C10: the reranker's implicit top-5 cap -/

/-- Every output document of `pushDocs` comes from the accumulator or the
input list. -/
theorem pushDocs_sub (k : Nat) :
    ∀ (ds out : List IndexDocument) (seen : List String),
      ∀ x ∈ (pushDocs k ds out seen).1, x ∈ out ∨ x ∈ ds := by
  intro ds
  induction ds with
  | nil => intro out seen x hx; simp [pushDocs] at hx; exact Or.inl hx
  | cons d rest ih =>
    intro out seen x hx
    by_cases hk : cid d ∈ seen
    · rw [pushDocs_cons_mem hk] at hx
      rcases ih out seen x hx with h | h
      · exact Or.inl h
      · exact Or.inr (List.mem_cons_of_mem d h)
    · by_cases hl : k ≤ out.length + 1
      · rw [pushDocs_cons_stop hk hl] at hx
        rcases List.mem_append.1 hx with h | h
        · exact Or.inl h
        · rw [List.mem_singleton] at h
          exact Or.inr (h ▸ List.mem_cons_self d rest)
      · rw [pushDocs_cons_go hk hl] at hx
        rcases ih (out ++ [d]) (cid d :: seen) x hx with h | h
        · rcases List.mem_append.1 h with h | h
          · exact Or.inl h
          · rw [List.mem_singleton] at h
            exact Or.inr (h ▸ List.mem_cons_self d rest)
        · exact Or.inr (List.mem_cons_of_mem d h)

/-- The `pushDocs` output grows by at most one entry per input document. -/
theorem pushDocs_length (k : Nat) :
    ∀ (ds out : List IndexDocument) (seen : List String),
      (pushDocs k ds out seen).1.length ≤ out.length + ds.length := by
  intro ds
  induction ds with
  | nil => intro out seen; simp [pushDocs]
  | cons d rest ih =>
    intro out seen
    by_cases hk : cid d ∈ seen
    · rw [pushDocs_cons_mem hk]
      have := ih out seen
      simp only [List.length_cons]
      omega
    · by_cases hl : k ≤ out.length + 1
      · rw [pushDocs_cons_stop hk hl]
        simp only [List.length_append, List.length_cons, List.length_nil]
        omega
      · rw [pushDocs_cons_go hk hl]
        have := ih (out ++ [d]) (cid d :: seen)
        simp only [List.length_append, List.length_cons, List.length_nil] at this ⊢
        omega

/-- C10: the reranker adapter always returns at most `RERANK_TOP_K = 5`
documents (its constructed `top_k`, smaller than the orchestrator's
`FINAL_TOP_K = 8`); consequently the final evidence pack holds at most 5
non-anchor documents, and at most 5 documents in total whenever no anchors
are injected. -/
theorem rerank_cap_final (scores : List Rat) (candidates : List IndexDocument)
    (basis : Option StatutoryBasis)
    (actIndex : Option (List (String × IndexDocument)))
    (rulesIndex : Option (List IndexDocument)) :
    (rerankAgent RERANK_TOP_K scores candidates).length ≤ 5
    ∧ RERANK_TOP_K < FINAL_TOP_K
    ∧ (retrieveFinalize basis actIndex rulesIndex
        (rerankAgent RERANK_TOP_K scores candidates)).countP
          (fun d => decide (d ∉ injectExpectedAnchorDocs basis actIndex rulesIndex)) ≤ 5
    ∧ (injectExpectedAnchorDocs basis actIndex rulesIndex = [] →
        (retrieveFinalize basis actIndex rulesIndex
          (rerankAgent RERANK_TOP_K scores candidates)).length ≤ 5) := by
  have hrr : (rerankAgent RERANK_TOP_K scores candidates).length ≤ 5 := by
    unfold rerankAgent
    split
    · simp
    · exact le_trans (List.length_take_le _ _) (le_refl _)
  refine ⟨hrr, by decide, ?_, ?_⟩
  · -- at most 5 non-anchor documents in the final pack
    set rr := rerankAgent RERANK_TOP_K scores candidates with hrrdef
    set anchors := injectExpectedAnchorDocs basis actIndex rulesIndex with hadef
    show (ensureAnchorDocsInFinal (rr.take FINAL_TOP_K) anchors FINAL_TOP_K).countP
      (fun d => decide (d ∉ anchors)) ≤ 5
    have htk : ∀ (l : List IndexDocument),
        ((l.take FINAL_TOP_K).take FINAL_TOP_K).length ≤ l.length := by
      intro l
      rw [List.length_take, List.length_take]
      omega
    by_cases hae : anchors.isEmpty
    · rw [ensureAnchorDocsInFinal, if_pos hae]
      calc ((rr.take FINAL_TOP_K).take FINAL_TOP_K).countP (fun d => decide (d ∉ anchors))
          ≤ ((rr.take FINAL_TOP_K).take FINAL_TOP_K).length := List.countP_le_length _
        _ ≤ rr.length := htk rr
        _ ≤ 5 := hrr
    · rw [ensureAnchorDocsInFinal, if_neg hae]
      have hsub := pushDocs_sub FINAL_TOP_K anchors [] []
      have hlen1 := pushDocs_length FINAL_TOP_K anchors [] []
      rcases hp : pushDocs FINAL_TOP_K anchors [] [] with ⟨out1, seen1, flag⟩
      rw [hp] at hsub hlen1
      have hout1 : ∀ x ∈ out1, x ∈ anchors := by
        intro x hx
        rcases hsub x hx with h | h
        · cases h
        · exact h
      have hout1z : out1.countP (fun d => decide (d ∉ anchors)) = 0 := by
        rw [List.countP_eq_zero]
        intro a ha
        simpa using hout1 a ha
      cases flag with
      | true =>
        show out1.countP (fun d => decide (d ∉ anchors)) ≤ 5
        rw [hout1z]
        omega
      | false =>
        show ((pushDocs FINAL_TOP_K (rr.take FINAL_TOP_K) out1 seen1).1.countP
          (fun d => decide (d ∉ anchors))) ≤ 5
        obtain ⟨t, ht⟩ := pushDocs_append FINAL_TOP_K (rr.take FINAL_TOP_K) out1 seen1
        have hlen2 := pushDocs_length FINAL_TOP_K (rr.take FINAL_TOP_K) out1 seen1
        rw [ht] at hlen2 ⊢
        rw [List.countP_append, hout1z]
        have htlen : t.length ≤ (rr.take FINAL_TOP_K).length := by
          rw [List.length_append] at hlen2
          omega
        calc 0 + t.countP (fun d => decide (d ∉ anchors)) ≤ t.length := by
              have := List.countP_le_length (l := t) (p := fun d => decide (d ∉ anchors))
              omega
          _ ≤ (rr.take FINAL_TOP_K).length := htlen
          _ ≤ rr.length := by
              rw [List.length_take]
              omega
          _ ≤ 5 := hrr
  · -- no anchors: at most 5 documents in total
    intro hae
    show (ensureAnchorDocsInFinal ((rerankAgent RERANK_TOP_K scores candidates).take
      FINAL_TOP_K) (injectExpectedAnchorDocs basis actIndex rulesIndex)
      FINAL_TOP_K).length ≤ 5
    rw [hae, ensure_nil_anchor]
    calc (((rerankAgent RERANK_TOP_K scores candidates).take FINAL_TOP_K).take
        FINAL_TOP_K).length
        ≤ (rerankAgent RERANK_TOP_K scores candidates).length := by
          rw [List.length_take, List.length_take]
          omega
      _ ≤ 5 := hrr

/-- Witness for C10 at a concrete call with no anchors injected. -/
theorem rerank_cap_final_witness :
    (rerankAgent RERANK_TOP_K [5, 3] [dGood, dBad]).length ≤ 5
    ∧ RERANK_TOP_K < FINAL_TOP_K
    ∧ (retrieveFinalize none none none
        (rerankAgent RERANK_TOP_K [5, 3] [dGood, dBad])).countP
          (fun d => decide (d ∉ injectExpectedAnchorDocs none none none)) ≤ 5
    ∧ (injectExpectedAnchorDocs none none none = [] →
        (retrieveFinalize none none none
          (rerankAgent RERANK_TOP_K [5, 3] [dGood, dBad])).length ≤ 5) :=
  rerank_cap_final [5, 3] [dGood, dBad] none none none

/-! ## Claim C9: BM25 preselection

Supporting lemmas.  First the stable sort: permutation, and — over a list of
pairwise-increasing indices — sortedness in the strict descending-score /
original-order lexicographic relation `scoreOrder`. -/

theorem stableInsert_perm {α : Type} (le : α → α → Bool) (a : α) :
    ∀ l : List α, (stableInsert le a l).Perm (a :: l) := by
  intro l
  induction l with
  | nil => simp [stableInsert]
  | cons b l ih =>
    unfold stableInsert
    by_cases h : le a b
    · rw [if_pos h]
    · rw [if_neg h]
      exact (List.Perm.cons b ih).trans (List.Perm.swap a b l)

theorem stableSort_perm {α : Type} (le : α → α → Bool) :
    ∀ l : List α, (stableSort le l).Perm l := by
  intro l
  induction l with
  | nil => simp [stableSort]
  | cons a l ih =>
    show (stableInsert le a (stableSort le l)).Perm (a :: l)
    exact (stableInsert_perm le a (stableSort le l)).trans (List.Perm.cons a ih)

theorem mem_stableInsert {α : Type} {le : α → α → Bool} {a x : α} {l : List α} :
    x ∈ stableInsert le a l ↔ x = a ∨ x ∈ l := by
  rw [(stableInsert_perm le a l).mem_iff]
  simp

/-- `scoreOrder` from a non-strict score comparison plus the index bound. -/
theorem scoreOrder_of_le_lt {scores : List Rat} {a x : Nat}
    (hle : scores.getD x 0 ≤ scores.getD a 0) (hlt : a < x) :
    scoreOrder scores a x := by
  rcases lt_or_eq_of_le hle with h | h
  · exact Or.inl h
  · exact Or.inr ⟨h.symm, hlt⟩

/-- Both `scoreOrder` branches give a non-strict score inequality. -/
theorem scoreOrder_le {scores : List Rat} {a x : Nat} (h : scoreOrder scores a x) :
    scores.getD x 0 ≤ scores.getD a 0 := by
  rcases h with h | ⟨h, _⟩
  · exact le_of_lt h
  · exact le_of_eq h.symm

/-- Inserting an index smaller than everything in an already
`scoreOrder`-sorted list keeps it sorted: the insertion point is after the
strictly higher scores and before the ties and lower scores, which is
exactly the original-order tie-break. -/
theorem stableInsert_scoreOrder (scores : List Rat) (a : Nat) :
    ∀ L : List Nat, (∀ b ∈ L, a < b) → L.Pairwise (scoreOrder scores) →
      (stableInsert (fun i j => decide (scores.getD j 0 ≤ scores.getD i 0)) a L).Pairwise
        (scoreOrder scores) := by
  intro L
  induction L with
  | nil => intro _ _; simp [stableInsert]
  | cons b L ih =>
    intro hgt hL
    rw [List.pairwise_cons] at hL
    unfold stableInsert
    by_cases h : scores.getD b 0 ≤ scores.getD a 0
    · rw [if_pos (by simpa using h)]
      rw [List.pairwise_cons]
      constructor
      · intro x hx
        rcases List.mem_cons.1 hx with hx | hx
        · subst hx
          exact scoreOrder_of_le_lt h (hgt x (List.mem_cons_self x L))
        · have hxb : scores.getD x 0 ≤ scores.getD b 0 := scoreOrder_le (hL.1 x hx)
          exact scoreOrder_of_le_lt (le_trans hxb h) (hgt x (List.mem_cons_of_mem b hx))
      · rw [List.pairwise_cons]
        exact hL
    · rw [if_neg (by simpa using h)]
      rw [List.pairwise_cons]
      constructor
      · intro x hx
        rcases mem_stableInsert.1 hx with hx | hx
        · subst hx
          exact Or.inl (lt_of_not_le h)
        · exact hL.1 x hx
      · exact ih (fun x hx => hgt x (List.mem_cons_of_mem b hx)) hL.2

/-- Stable-sorting a strictly increasing index list yields a
`scoreOrder`-sorted list. -/
theorem stableSort_scoreOrder (scores : List Rat) :
    ∀ L : List Nat, L.Pairwise (· < ·) →
      (stableSort (fun i j => decide (scores.getD j 0 ≤ scores.getD i 0)) L).Pairwise
        (scoreOrder scores) := by
  intro L
  induction L with
  | nil => intro _; simp [stableSort]
  | cons a L ih =>
    intro hL
    rw [List.pairwise_cons] at hL
    unfold stableSort
    refine stableInsert_scoreOrder scores a _ ?_ (ih hL.2)
    intro b hb
    exact hL.1 b ((stableSort_perm _ L).mem_iff.1 hb)

/-- The ranked index list is a permutation of `range n`, sorted by
descending score with ties in original order. -/
theorem rankedIdx_spec (scores : List Rat) (n : Nat) :
    (rankedIdx scores n).Pairwise (scoreOrder scores)
    ∧ (rankedIdx scores n).Perm (List.range n) :=
  ⟨stableSort_scoreOrder scores (List.range n) (List.pairwise_lt_range n),
    stableSort_perm _ (List.range n)⟩

/-- `uniqueKey` is the chunk id when the chunk id is non-empty. -/
theorem uniqueKey_eq {d : IndexDocument} (h : d.chunk_id ≠ "") :
    uniqueKey d = d.chunk_id := by
  unfold uniqueKey pyOr
  rw [if_neg h]

/-- `_unique_docs` only keeps input documents. -/
theorem uniqueDocsAux_sub :
    ∀ (l : List IndexDocument) (seen : List String),
      ∀ x ∈ uniqueDocsAux l seen, x ∈ l := by
  intro l
  induction l with
  | nil => intro seen x hx; simp [uniqueDocsAux] at hx
  | cons d rest ih =>
    intro seen x hx
    unfold uniqueDocsAux at hx
    by_cases hc : uniqueKey d ≠ "" ∧ uniqueKey d ∈ seen
    · rw [if_pos hc] at hx
      exact List.mem_cons_of_mem d (ih seen x hx)
    · rw [if_neg hc] at hx
      rcases List.mem_cons.1 hx with hx | hx
      · exact hx ▸ List.mem_cons_self d rest
      · exact List.mem_cons_of_mem d (ih _ x hx)

/-- Over documents with non-empty chunk ids, `_unique_docs` output has
pairwise distinct chunk ids, none of them in the initial `seen` set. -/
theorem uniqueDocsAux_pairwise :
    ∀ (l : List IndexDocument), (∀ d ∈ l, d.chunk_id ≠ "") →
      ∀ seen : List String,
        ((uniqueDocsAux l seen).Pairwise (fun a b => a.chunk_id ≠ b.chunk_id))
        ∧ (∀ x ∈ uniqueDocsAux l seen, x.chunk_id ∉ seen) := by
  intro l
  induction l with
  | nil => intro _ seen; constructor <;> simp [uniqueDocsAux]
  | cons d rest ih =>
    intro hne seen
    have hdne : d.chunk_id ≠ "" := hne d (List.mem_cons_self d rest)
    have hkey : uniqueKey d = d.chunk_id := uniqueKey_eq hdne
    have hrest : ∀ x ∈ rest, x.chunk_id ≠ "" := fun x hx =>
      hne x (List.mem_cons_of_mem d hx)
    unfold uniqueDocsAux
    by_cases hc : uniqueKey d ≠ "" ∧ uniqueKey d ∈ seen
    · rw [if_pos hc]
      exact ih hrest seen
    · rw [if_neg hc]
      have hnotin : d.chunk_id ∉ seen := by
        intro hcon
        exact hc ⟨hkey ▸ hdne, hkey ▸ hcon⟩
      have hseen' : (if uniqueKey d ≠ "" then uniqueKey d :: seen else seen) =
          d.chunk_id :: seen := by
        rw [if_pos (hkey ▸ hdne), hkey]
      rw [hseen']
      obtain ⟨ihp, ihs⟩ := ih hrest (d.chunk_id :: seen)
      constructor
      · rw [List.pairwise_cons]
        refine ⟨?_, ihp⟩
        intro x hx hcon
        exact (ihs x hx) (hcon ▸ List.mem_cons_self _ _)
      · intro x hx
        rcases List.mem_cons.1 hx with hx | hx
        · exact hx ▸ hnotin
        · exact fun hcon => (ihs x hx) (List.mem_cons_of_mem _ hcon)

/-- Truncating an append at the left part's length plus one keeps the left
part and the first right element. -/
theorem take_len_succ_append {α : Type} :
    ∀ (l1 : List α) (a : α) (l2 : List α),
      (l1 ++ a :: l2).take (l1.length + 1) = l1 ++ [a] := by
  intro l1
  induction l1 with
  | nil => intro a l2; simp
  | cons x l1 ih =>
    intro a l2
    simp only [List.cons_append, List.length_cons, List.take_succ_cons, List.cons_inj_right]
    exact ih a l2

/-! Unfolding equations for the must-keep loop. -/

theorem pickMust_cons_new_stop {k : Nat} {d : IndexDocument} {rest picked ids}
    (h1 : d.chunk_id ≠ "" ∧ d.chunk_id ∉ ids) (h2 : k ≤ picked.length + 1) :
    pickMust k (d :: rest) picked ids = (picked ++ [d], d.chunk_id :: ids, true) := by
  simp [pickMust, h1, h2]

theorem pickMust_cons_new_go {k : Nat} {d : IndexDocument} {rest picked ids}
    (h1 : d.chunk_id ≠ "" ∧ d.chunk_id ∉ ids) (h2 : ¬ k ≤ picked.length + 1) :
    pickMust k (d :: rest) picked ids =
      pickMust k rest (picked ++ [d]) (d.chunk_id :: ids) := by
  simp [pickMust, h1, h2]

theorem pickMust_cons_skip_stop {k : Nat} {d : IndexDocument} {rest picked ids}
    (h1 : ¬ (d.chunk_id ≠ "" ∧ d.chunk_id ∉ ids)) (h2 : k ≤ picked.length) :
    pickMust k (d :: rest) picked ids = (picked, ids, true) := by
  simp [pickMust, h1, h2]

theorem pickMust_cons_skip_go {k : Nat} {d : IndexDocument} {rest picked ids}
    (h1 : ¬ (d.chunk_id ≠ "" ∧ d.chunk_id ∉ ids)) (h2 : ¬ k ≤ picked.length) :
    pickMust k (d :: rest) picked ids = pickMust k rest picked ids := by
  simp [pickMust, h1, h2]

theorem dedupMustKeep_cons_keep {d : IndexDocument} {rest seen}
    (h : d.chunk_id ≠ "" ∧ d.chunk_id ∉ seen) :
    dedupMustKeep (d :: rest) seen = d :: dedupMustKeep rest (d.chunk_id :: seen) := by
  simp [dedupMustKeep, h]

theorem dedupMustKeep_cons_skip {d : IndexDocument} {rest seen}
    (h : ¬ (d.chunk_id ≠ "" ∧ d.chunk_id ∉ seen)) :
    dedupMustKeep (d :: rest) seen = dedupMustKeep rest seen := by
  simp [dedupMustKeep, h]

theorem dedupSeen_cons_keep {d : IndexDocument} {rest seen}
    (h : d.chunk_id ≠ "" ∧ d.chunk_id ∉ seen) :
    dedupSeen (d :: rest) seen = dedupSeen rest (d.chunk_id :: seen) := by
  simp [dedupSeen, h]

theorem dedupSeen_cons_skip {d : IndexDocument} {rest seen}
    (h : ¬ (d.chunk_id ≠ "" ∧ d.chunk_id ∉ seen)) :
    dedupSeen (d :: rest) seen = dedupSeen rest seen := by
  simp [dedupSeen, h]

/-- When the deduplicated must-keep block fits strictly under `k`, the
must-keep loop completes without the early return. -/
theorem pickMust_small (k : Nat) :
    ∀ (ds picked : List IndexDocument) (ids : List String),
      picked.length < k → (picked ++ dedupMustKeep ds ids).length < k →
      pickMust k ds picked ids =
        (picked ++ dedupMustKeep ds ids, dedupSeen ds ids, false) := by
  intro ds
  induction ds with
  | nil => intro picked ids _ _; simp [pickMust, dedupMustKeep, dedupSeen]
  | cons d rest ih =>
    intro picked ids hp hlen
    by_cases hc : d.chunk_id ≠ "" ∧ d.chunk_id ∉ ids
    · rw [dedupMustKeep_cons_keep hc] at hlen ⊢
      rw [dedupSeen_cons_keep hc]
      have hlen' : (picked ++ [d] ++ dedupMustKeep rest (d.chunk_id :: ids)).length < k := by
        simp only [List.length_append, List.length_cons, List.length_nil] at hlen ⊢
        omega
      have hp' : (picked ++ [d]).length < k := by
        simp only [List.length_append, List.length_cons, List.length_nil] at hlen' ⊢
        omega
      have h2 : ¬ k ≤ picked.length + 1 := by
        simp only [List.length_append, List.length_cons, List.length_nil] at hp'
        omega
      rw [pickMust_cons_new_go hc h2, ih (picked ++ [d]) (d.chunk_id :: ids) hp' hlen']
      simp [List.append_assoc]
    · rw [dedupMustKeep_cons_skip hc] at hlen ⊢
      rw [dedupSeen_cons_skip hc]
      rw [pickMust_cons_skip_go hc (by omega)]
      exact ih picked ids hp hlen

/-- When the deduplicated must-keep block reaches `k`, the must-keep loop
returns early with exactly the first `k` entries of the block. -/
theorem pickMust_big (k : Nat) :
    ∀ (ds picked : List IndexDocument) (ids : List String),
      picked.length < k → k ≤ (picked ++ dedupMustKeep ds ids).length →
      ∃ ids2, pickMust k ds picked ids =
        ((picked ++ dedupMustKeep ds ids).take k, ids2, true) := by
  intro ds
  induction ds with
  | nil =>
    intro picked ids hp hlen
    exfalso
    simp only [dedupMustKeep, List.append_nil] at hlen
    omega
  | cons d rest ih =>
    intro picked ids hp hlen
    by_cases hc : d.chunk_id ≠ "" ∧ d.chunk_id ∉ ids
    · rw [dedupMustKeep_cons_keep hc] at hlen ⊢
      by_cases h2 : k ≤ picked.length + 1
      · have hk : k = picked.length + 1 := by omega
        refine ⟨d.chunk_id :: ids, ?_⟩
        rw [pickMust_cons_new_stop hc h2, hk, take_len_succ_append]
      · have hp' : (picked ++ [d]).length < k := by
          simp only [List.length_append, List.length_cons, List.length_nil]
          omega
        have hlen' : k ≤ (picked ++ [d] ++ dedupMustKeep rest (d.chunk_id :: ids)).length := by
          simp only [List.length_append, List.length_cons, List.length_nil] at hlen ⊢
          omega
        obtain ⟨ids2, hids2⟩ := ih (picked ++ [d]) (d.chunk_id :: ids) hp' hlen'
        refine ⟨ids2, ?_⟩
        rw [pickMust_cons_new_go hc h2, hids2]
        simp [List.append_assoc]
    · rw [dedupMustKeep_cons_skip hc] at hlen ⊢
      obtain ⟨ids2, hids2⟩ := ih picked ids hp hlen
      refine ⟨ids2, ?_⟩
      rw [pickMust_cons_skip_go hc (by omega)]
      exact hids2

/-- Membership in the accumulated id set of the must-keep block. -/
theorem dedupSeen_iff :
    ∀ (ds : List IndexDocument) (ids : List String) (s : String),
      s ∈ dedupSeen ds ids ↔ s ∈ ids ∨ ∃ x ∈ dedupMustKeep ds ids, x.chunk_id = s := by
  intro ds
  induction ds with
  | nil => intro ids s; simp [dedupSeen, dedupMustKeep]
  | cons d rest ih =>
    intro ids s
    by_cases hc : d.chunk_id ≠ "" ∧ d.chunk_id ∉ ids
    · rw [dedupSeen_cons_keep hc, dedupMustKeep_cons_keep hc, ih]
      constructor
      · rintro (h | h)
        · rcases List.mem_cons.1 h with h | h
          · exact Or.inr ⟨d, List.mem_cons_self _ _, h.symm⟩
          · exact Or.inl h
        · obtain ⟨x, hx, hxs⟩ := h
          exact Or.inr ⟨x, List.mem_cons_of_mem d hx, hxs⟩
      · rintro (h | h)
        · exact Or.inl (List.mem_cons_of_mem _ h)
        · obtain ⟨x, hx, hxs⟩ := h
          rcases List.mem_cons.1 hx with hx | hx
          · exact Or.inl (hx ▸ hxs ▸ List.mem_cons_self _ _)
          · exact Or.inr ⟨x, hx, hxs⟩
    · rw [dedupSeen_cons_skip hc, dedupMustKeep_cons_skip hc, ih]

/-! Unfolding equations for the ranked loop. -/

theorem pickRanked_cons_skip {k : Nat} {docs1 : List IndexDocument} {i : Nat}
    {rest picked ids} {d : IndexDocument} (hget : docs1[i]? = some d)
    (h : d.chunk_id ≠ "" ∧ d.chunk_id ∈ ids) :
    pickRanked k docs1 (i :: rest) picked ids = pickRanked k docs1 rest picked ids := by
  simp [pickRanked, hget, h]

theorem pickRanked_cons_keep_stop {k : Nat} {docs1 : List IndexDocument} {i : Nat}
    {rest picked ids} {d : IndexDocument} (hget : docs1[i]? = some d)
    (h : ¬ (d.chunk_id ≠ "" ∧ d.chunk_id ∈ ids)) (h2 : k ≤ picked.length + 1) :
    pickRanked k docs1 (i :: rest) picked ids = picked ++ [d] := by
  simp [pickRanked, hget, h, h2]

theorem pickRanked_cons_keep_go {k : Nat} {docs1 : List IndexDocument} {i : Nat}
    {rest picked ids} {d : IndexDocument} (hget : docs1[i]? = some d)
    (h : ¬ (d.chunk_id ≠ "" ∧ d.chunk_id ∈ ids)) (h2 : ¬ k ≤ picked.length + 1) :
    pickRanked k docs1 (i :: rest) picked ids =
      pickRanked k docs1 rest (picked ++ [d])
        (if d.chunk_id ≠ "" then d.chunk_id :: ids else ids) := by
  simp only [pickRanked, hget]
  rw [if_neg h]
  have : (picked ++ [d]).length = picked.length + 1 := by
    simp
  rw [this, if_neg h2]

/-- The ranked loop appends, in ranked order, the candidates whose chunk id
is not among the already-picked ids, truncating the total at `k` — provided
the candidates are cid-distinct, resolvable and non-empty-keyed, and `ids`
is exactly the chunk-id set of `picked`. -/
theorem pickRanked_eq (k : Nat) (docs1 : List IndexDocument) :
    ∀ (idxs : List Nat) (picked : List IndexDocument) (ids : List String),
      picked.length < k →
      (∀ s : String, s ∈ ids ↔ ∃ x ∈ picked, x.chunk_id = s) →
      (∀ i ∈ idxs, ∃ d, docs1[i]? = some d ∧ d.chunk_id ≠ "") →
      (idxs.filterMap (fun i => docs1[i]?)).Pairwise
        (fun a b => a.chunk_id ≠ b.chunk_id) →
      pickRanked k docs1 idxs picked ids =
        (picked ++ (idxs.filterMap (fun i => docs1[i]?)).filter
          (fun d => decide (d.chunk_id ∉ ids))).take k := by
  intro idxs
  induction idxs with
  | nil =>
    intro picked ids hp _ _ _
    simp only [List.filterMap_nil, List.filter_nil, List.append_nil, pickRanked]
    rw [List.take_of_length_le (by omega)]
  | cons i rest ih =>
    intro picked ids hp hids hval hpair
    obtain ⟨d, hget, hcne⟩ := hval i (List.mem_cons_self i rest)
    have hfm : (i :: rest).filterMap (fun j => docs1[j]?) =
        d :: rest.filterMap (fun j => docs1[j]?) := by
      rw [List.filterMap_cons_some hget]
    rw [hfm] at hpair ⊢
    rw [List.pairwise_cons] at hpair
    by_cases hmem : d.chunk_id ∈ ids
    · rw [pickRanked_cons_skip hget ⟨hcne, hmem⟩]
      rw [List.filter_cons_of_neg (by simpa using hmem)]
      exact ih picked ids hp hids
        (fun j hj => hval j (List.mem_cons_of_mem i hj)) hpair.2
    · have hkeep : ¬ (d.chunk_id ≠ "" ∧ d.chunk_id ∈ ids) := fun h => hmem h.2
      rw [List.filter_cons_of_pos (by simpa using hmem)]
      by_cases h2 : k ≤ picked.length + 1
      · have hk : k = picked.length + 1 := by omega
        rw [pickRanked_cons_keep_stop hget hkeep h2, hk, take_len_succ_append]
      · rw [pickRanked_cons_keep_go hget hkeep h2, if_pos hcne]
        have hids' : ∀ s : String, s ∈ d.chunk_id :: ids ↔
            ∃ x ∈ picked ++ [d], x.chunk_id = s := by
          intro s
          rw [List.mem_cons, hids s]
          constructor
          · rintro (h | ⟨x, hx, hxs⟩)
            · exact ⟨d, List.mem_append_right picked (List.mem_singleton.2 rfl), h.symm⟩
            · exact ⟨x, List.mem_append_left _ hx, hxs⟩
          · rintro ⟨x, hx, hxs⟩
            rcases List.mem_append.1 hx with hx | hx
            · exact Or.inr ⟨x, hx, hxs⟩
            · rw [List.mem_singleton] at hx
              exact Or.inl (hx ▸ hxs).symm
        have hrec := ih (picked ++ [d]) (d.chunk_id :: ids)
          (by simp only [List.length_append, List.length_cons, List.length_nil]; omega)
          hids' (fun j hj => hval j (List.mem_cons_of_mem i hj)) hpair.2
        rw [hrec]
        have hfcongr : (rest.filterMap (fun j => docs1[j]?)).filter
            (fun x => decide (x.chunk_id ∉ d.chunk_id :: ids)) =
            (rest.filterMap (fun j => docs1[j]?)).filter
              (fun x => decide (x.chunk_id ∉ ids)) := by
          apply List.filter_congr
          intro x hx
          have hne : d.chunk_id ≠ x.chunk_id := hpair.1 x hx
          simp only [decide_eq_decide, List.mem_cons]
          constructor
          · intro h hmem2
            exact h (Or.inr hmem2)
          · intro h hmem2
            rcases hmem2 with h3 | h3
            · exact hne h3.symm
            · exact h h3
        rw [hfcongr]
        simp only [List.append_assoc, List.singleton_append]

/-- Truncating an append within the left part ignores the right part. -/
theorem take_append_left {α : Type} {n : Nat} (l1 l2 : List α) (h : n ≤ l1.length) :
    (l1 ++ l2).take n = l1.take n := by
  rw [List.take_append_eq_append_take, Nat.sub_eq_zero_of_le h, List.take_zero,
    List.append_nil]

/-- The anchor scan of an empty candidate list finds nothing. -/
theorem expectedAnchorDocs_nil (basis : Option StatutoryBasis) :
    expectedAnchorDocs basis [] = [] := by
  unfold expectedAnchorDocs
  split <;> simp

/-- The main characterization: `_bm25_preselect` equals its specification
(dedup anchors first, then stably score-ranked candidates, truncated),
whenever `k ≥ 1` and all candidate chunk ids are non-empty. -/
theorem bm25Preselect_eq_spec (lg : Rat → Rat) (query : String)
    (docs : List IndexDocument) (basis : Option StatutoryBasis) (k : Nat)
    (hk : 1 ≤ k) (hne : ∀ d ∈ docs, d.chunk_id ≠ "") :
    bm25Preselect lg query docs basis k = preselectSpecOut lg query docs basis k := by
  have hne1 : ∀ d ∈ uniqueDocsAux docs [], d.chunk_id ≠ "" := fun d hd =>
    hne d (uniqueDocsAux_sub docs [] d hd)
  have hdist : (uniqueDocsAux docs []).Pairwise (fun a b => a.chunk_id ≠ b.chunk_id) :=
    (uniqueDocsAux_pairwise docs hne []).1
  simp only [bm25Preselect, preselectSpecOut]
  by_cases hde : (uniqueDocsAux docs []).isEmpty
  · have hdocs1 : uniqueDocsAux docs [] = [] := by
      cases h : uniqueDocsAux docs [] with
      | nil => rfl
      | cons a l => rw [h] at hde; exact absurd hde (by simp)
    rw [if_pos hde, hdocs1]
    by_cases hqe : (tokenize query).isEmpty
    · rw [if_pos hqe]
      simp
    · rw [if_neg hqe]
      rw [expectedAnchorDocs_nil]
      simp only [dedupMustKeep, List.length_nil]
      simp [rankedIdx, List.range_zero, stableSort]
  · rw [if_neg hde]
    by_cases hqe : (tokenize query).isEmpty
    · rw [if_pos hqe, if_pos hqe]
    · rw [if_neg hqe, if_neg hqe]
      set docs1 := uniqueDocsAux docs [] with hd1
      set scores := bm25Scores lg (tokenize query)
        (docs1.map (fun d => tokenize d.content)) (8/5) (3/4) with hsc
      set mustKeep := expectedAnchorDocs basis docs1 with hmk
      set mp := dedupMustKeep mustKeep [] with hmp
      set ranked := rankedIdx scores docs1.length with hrk
      by_cases hbig : k ≤ mp.length
      · obtain ⟨ids2, hpm⟩ := pickMust_big k mustKeep [] []
          (by simp only [List.length_nil]; omega)
          (by rw [List.nil_append, ← hmp]; exact hbig)
        rw [List.nil_append, ← hmp] at hpm
        rw [hpm]
        simp only [if_true]
        rw [take_append_left _ _ hbig]
      · have hpm := pickMust_small k mustKeep [] []
          (by simp only [List.length_nil]; omega)
          (by rw [List.nil_append, ← hmp]; omega)
        rw [List.nil_append, ← hmp] at hpm
        rw [hpm]
        simp only [Bool.false_eq_true, if_false]
        show pickRanked k docs1 ranked mp (dedupSeen mustKeep []) = _
        have hperm : ranked.Perm (List.range docs1.length) := (rankedIdx_spec scores
          docs1.length).2
        have hval : ∀ i ∈ ranked, ∃ d, docs1[i]? = some d ∧ d.chunk_id ≠ "" := by
          intro i hi
          have hilt : i < docs1.length := by
            have := hperm.mem_iff.1 hi
            exact List.mem_range.1 this
          refine ⟨docs1[i], List.getElem?_eq_getElem hilt, ?_⟩
          exact hne1 _ (List.getElem_mem hilt)
        have hnd : ranked.Nodup := (List.nodup_range _).perm hperm.symm
        have hdistIdx : ∀ (i j : Nat) (hi : i < docs1.length) (hj : j < docs1.length),
            i ≠ j → (docs1.get ⟨i, hi⟩).chunk_id ≠ (docs1.get ⟨j, hj⟩).chunk_id := by
          intro i j hi hj hij
          rcases Nat.lt_or_ge i j with h | h
          · exact (List.pairwise_iff_getElem.1 hdist) i j hi hj h
          · have hji : j < i := by omega
            exact ((List.pairwise_iff_getElem.1 hdist) j i hj hi hji).symm
        have hpair : (ranked.filterMap (fun i => docs1[i]?)).Pairwise
            (fun a b => a.chunk_id ≠ b.chunk_id) := by
          rw [List.pairwise_filterMap]
          refine hnd.imp ?_
          intro i j hij b hb b' hb'
          rw [Option.mem_def] at hb hb'
          have hilt : i < docs1.length := by
            by_contra hcon
            rw [List.getElem?_eq_none (by omega)] at hb
            cases hb
          have hjlt : j < docs1.length := by
            by_contra hcon
            rw [List.getElem?_eq_none (by omega)] at hb'
            cases hb'
          rw [List.getElem?_eq_getElem hilt] at hb
          rw [List.getElem?_eq_getElem hjlt] at hb'
          have hbi := Option.some.inj hb
          have hbj := Option.some.inj hb'
          rw [← hbi, ← hbj]
          exact hdistIdx i j hilt hjlt hij
        have hids : ∀ s : String, s ∈ dedupSeen mustKeep [] ↔
            ∃ x ∈ mp, x.chunk_id = s := by
          intro s
          rw [dedupSeen_iff]
          simp [hmp]
        rw [pickRanked_eq k docs1 ranked mp (dedupSeen mustKeep []) (by omega) hids
          hval hpair]
        have hfc : (ranked.filterMap (fun i => docs1[i]?)).filter
            (fun d => decide (d.chunk_id ∉ dedupSeen mustKeep [])) =
            (ranked.filterMap (fun i => docs1[i]?)).filter
              (fun d => decide (d.chunk_id ∉ mp.map (fun x => x.chunk_id))) := by
          apply List.filter_congr
          intro x _
          simp only [decide_eq_decide]
          rw [hids x.chunk_id]
          simp [List.mem_map]
        rw [hfc]

/-- C9 counterexample: with `k = 1` and two candidates both matching the
expected section, the second must-keep document is dropped (the must-keep
loop returns early at `k`), so not every must-keep document is placed in
the output. -/
theorem C9_counterexample :
    dB ∈ expectedAnchorDocs basis18 (uniqueDocsAux [dA, dB] [])
    ∧ dB ∉ bm25Preselect (fun x => x) "refund" [dA, dB] basis18 1 := by
  decide

/-- C9 (amended): for `k ≥ 1` and candidates with non-empty chunk ids, the
preselect output is exactly the deduplicated must-keep block followed by the
remaining candidates in descending BM25 order with ties broken by original
candidate order, truncated to `k` (so every must-keep document is kept only
up to the cap `k`); the output size is at most `k`; and preselection is
skipped when the pool does not exceed `BM25_PRESELECT_K`. -/
theorem bm25_preselect_spec (lg : Rat → Rat) (query : String)
    (docs : List IndexDocument) (basis : Option StatutoryBasis) (k : Nat)
    (hk : 1 ≤ k) (hne : ∀ d ∈ docs, d.chunk_id ≠ "") :
    preselectClaimOK lg query docs basis k := by
  have heq := bm25Preselect_eq_spec lg query docs basis k hk hne
  refine ⟨heq, ?_, ?_, ?_⟩
  · rw [heq]
    simp only [preselectSpecOut]
    split
    · exact List.length_take_le _ _
    · exact List.length_take_le _ _
  · exact ⟨(rankedIdx_spec _ _).1, (rankedIdx_spec _ _).2⟩
  · intro hlen
    have h60 : docs.length ≤ 60 := by simpa [BM25_PRESELECT_K] using hlen
    have hcond : ¬ (HYBRID_BM25_ENABLED = true ∧ BM25_PRESELECT_K < docs.length) := by
      intro hcon
      have h2 := hcon.2
      simp only [BM25_PRESELECT_K] at h2
      omega
    unfold preselectStep
    rw [if_neg hcond]

/-- Witness for C9 (amended) at a concrete input. -/
theorem bm25_preselect_spec_witness :
    1 ≤ 2 ∧ (∀ d ∈ ([dA, dB] : List IndexDocument), d.chunk_id ≠ "")
    ∧ preselectClaimOK (fun x => x) "refund" [dA, dB] basis18 2 :=
  ⟨by decide, by decide,
    bm25_preselect_spec (fun x => x) "refund" [dA, dB] basis18 2 (by decide) (by decide)⟩

end ContractRisk
